import Mathlib

/-!
Verification of the Matterhorn AH fractal renderer (src/main.rs) against its
specification.  The Rust source is shallowly embedded: `f32` arithmetic is
idealized as real arithmetic (`ℝ`), machine integers as `ℕ`, and each Rust
function is translated into a Lean definition of the same name.  Buffers of
RGBA8 bytes are modelled as functions from flat byte index to byte value.
-/

namespace Matterhorn

/-- Real-valued `atan2 y x` (angle of the point `(x, y)`), mirroring `f32::atan2`. -/
noncomputable def atan2 (y x : ℝ) : ℝ :=
  if 0 < x then Real.arctan (y / x)
  else if x < 0 then
    (if 0 ≤ y then Real.arctan (y / x) + Real.pi else Real.arctan (y / x) - Real.pi)
  else
    (if 0 < y then Real.pi / 2 else if y < 0 then -(Real.pi / 2) else 0)

/-- Truncation toward zero, the semantics of Rust `f32::trunc` and of float-to-int casts. -/
noncomputable def rustTrunc (x : ℝ) : ℝ :=
  if 0 ≤ x then ((⌊x⌋ : ℤ) : ℝ) else ((⌈x⌉ : ℤ) : ℝ)

/-- Rust's `%` on floats: remainder with the sign of the dividend, `x - y * trunc (x / y)`. -/
noncomputable def rustRem (x y : ℝ) : ℝ := x - y * rustTrunc (x / y)

/-- Rust `f32::fract`: `x - x.trunc()`. -/
noncomputable def rustFract (x : ℝ) : ℝ := x - rustTrunc x

/-- Rust `f32::round`: round half away from zero. -/
noncomputable def rustRound (x : ℝ) : ℤ :=
  if 0 ≤ x then ⌊x + 1 / 2⌋ else ⌈x - 1 / 2⌉

/-- Rust `f32::clamp(lo, hi)`: `min (max x lo) hi`. -/
noncomputable def clampR (x lo hi : ℝ) : ℝ := min (max x lo) hi

/-- Rust `(x * 255.0) as u8`: multiply, truncate toward zero, saturate to `[0, 255]`. -/
noncomputable def toByte (x : ℝ) : ℕ := min (⌊x * 255⌋.toNat) 255

/-- Value of `f32::EPSILON` (`2⁻²³`). -/
noncomputable def f32_epsilon : ℝ := 1 / 2 ^ 23

/-- Value of `f32::MAX` (`2¹²⁸ - 2¹⁰⁴`). -/
noncomputable def f32_max : ℝ := 2 ^ 128 - 2 ^ 104

/-- The `Interp::lerp` implementation for `f32`: `a + (b - a) * u`. -/
noncomputable def lerp (a b u : ℝ) : ℝ := a + (b - a) * u

/-- Complex number record of the source (`struct Complex { re, im }`). -/
structure Complex where
  re : ℝ
  im : ℝ

/-- Camera record: complex-plane center, pixels-per-unit scale, rotation in radians. -/
structure Camera where
  center : Complex
  scale : ℝ
  rotation : ℝ

/-- Source `Camera::default()`. -/
noncomputable def default_camera : Camera :=
  { center := { re := -0.5, im := 0 }, scale := 300, rotation := 0 }

/-- The four fractal formulas. -/
inductive FractalKind
  | Mandelbrot
  | Julia
  | BurningShip
  | Multibrot
deriving DecidableEq

/-- Orbit-trap reference shapes. -/
inductive OrbitTrapKind
  | Point
  | Circle
  | Cross
deriving DecidableEq

/-- Orbit trap configuration. -/
structure OrbitTrap where
  enabled : Bool
  kind : OrbitTrapKind
  radius : ℝ
  softness : ℝ
  color : ℝ × ℝ × ℝ
  point : Complex

/-- Source `OrbitTrap::default()`. -/
noncomputable def default_orbit : OrbitTrap :=
  { enabled := false, kind := OrbitTrapKind.Point, radius := 0.35, softness := 5,
    color := (1, 0.5, 0.3), point := { re := 0, im := 0 } }

/-- One palette control stop: a position and an RGB float triple. -/
structure PaletteStop where
  pos : ℝ
  color : ℝ × ℝ × ℝ

/-- Full per-render fractal parameter record. -/
structure FractalParams where
  kind : FractalKind
  max_iter : ℕ
  escape_radius : ℝ
  power : ℝ
  c : Complex
  palette_phase : ℝ
  exposure : ℝ
  gamma : ℝ
  palette : List PaletteStop
  orbit : OrbitTrap

-- ------------------------- Animation -------------------------

/-- The five easing kinds of the source. -/
inductive Easing
  | Linear
  | EaseIn
  | EaseOut
  | EaseInOut
  | SmoothStep
deriving DecidableEq

/-- Source `Easing::apply`. -/
noncomputable def Easing.apply (e : Easing) (t : ℝ) : ℝ :=
  match e with
  | Easing.Linear => t
  | Easing.EaseIn => t * t
  | Easing.EaseOut => 1 - (1 - t) * (1 - t)
  | Easing.EaseInOut => if t < 0.5 then 2 * t * t else 1 - (-2 * t + 2) ^ 2 / 2
  | Easing.SmoothStep => t * t * (3 - 2 * t)

/-- One keyframe: time, value, and the easing of the outgoing segment. -/
structure Keyframe where
  t : ℝ
  v : ℝ
  easing : Easing

/-- A keyframe track (`Keyframes<f32>`), a list ordered by time. -/
structure Keyframes where
  keys : List Keyframe

/-- Loop body of `Keyframes::sample`: scan for the first key `k` with `t ≤ k.t`,
interpolating from the previous key; past the end return the last key's value. -/
noncomputable def sampleGo (t : ℝ) : Keyframe → List Keyframe → ℝ
  | prev, [] => prev.v
  | prev, k :: rest =>
    if t ≤ k.t then
      lerp prev.v k.v
        (prev.easing.apply (clampR ((t - prev.t) / max (k.t - prev.t) 1e-4) 0 1))
    else sampleGo t k rest

/-- Source `Keyframes::sample`: empty track gives the caller default, a single
key gives its value, otherwise the bracketing scan. -/
noncomputable def Keyframes.sample (ks : Keyframes) (t dflt : ℝ) : ℝ :=
  match ks.keys with
  | [] => dflt
  | [k] => k.v
  | k :: rest => sampleGo t k rest

/-- Helper for `Keyframes::upsert`: overwrite the value of the first key whose time
is within `1e-4` of `t` (Rust `iter_mut().find(...)`), or report `none`. -/
noncomputable def overwriteFirst (t v : ℝ) : List Keyframe → Option (List Keyframe)
  | [] => none
  | k :: rest =>
    if |k.t - t| < 1e-4 then some ({ k with v := v } :: rest)
    else (overwriteFirst t v rest).map (fun l => k :: l)

/-- Source `Keyframes::upsert`: overwrite an existing key within epsilon, else push
a new `Linear` key and re-sort by time. -/
noncomputable def Keyframes.upsert (ks : Keyframes) (t v : ℝ) : Keyframes :=
  match overwriteFirst t v ks.keys with
  | some keys => ⟨keys⟩
  | none =>
    ⟨(ks.keys ++ [({ t := t, v := v, easing := Easing.Linear } : Keyframe)]).mergeSort
      (fun a b => decide (a.t ≤ b.t))⟩

/-- Source `Keyframes::clamp_all`: clamp every key time into `[0, duration]`. -/
noncomputable def Keyframes.clamp_all (ks : Keyframes) (duration : ℝ) : Keyframes :=
  ⟨ks.keys.map (fun k => { k with t := clampR k.t 0 duration })⟩

/-- The timeline-drag mutation of `track_timeline_row`: set the dragged key's time to
`rel.clamp(0,1) * duration` in place, with no re-sort. -/
noncomputable def drag_key_time (ks : Keyframes) (idx : ℕ) (rel duration : ℝ) : Keyframes :=
  match ks.keys[idx]? with
  | some k => ⟨ks.keys.set idx { k with t := clampR rel 0 1 * duration }⟩
  | none => ks

/-- Endless-zoom configuration. -/
structure EndlessZoom where
  start_scale : ℝ
  speed : ℝ
  reverse : Bool
  lock_repeating_spot : Bool

/-- Source `EndlessZoom::value_at`: exponential decay/growth of the start scale,
with speed clamped into `[0.5, 0.995]` and inverted when reversed. -/
noncomputable def EndlessZoom.value_at (z : EndlessZoom) (t : ℝ) : ℝ :=
  let clamped_speed := clampR z.speed 0.5 0.995
  let factor := if z.reverse then 1 / clamped_speed else clamped_speed
  z.start_scale * factor ^ (max t 0)

/-- The four animated track identifiers. -/
inductive TrackKind
  | Zoom
  | Palette
  | CenterX
  | CenterY
deriving DecidableEq

/-- Reference to the currently selected key of a track. -/
structure SelectedKey where
  track : TrackKind
  index : ℕ

/-- Animation record of the source. -/
structure Animation where
  fps : ℕ
  duration : ℝ
  playing : Bool
  looping : Bool
  t : ℝ
  kf_zoom : Keyframes
  kf_palette : Keyframes
  kf_center_x : Keyframes
  kf_center_y : Keyframes
  selection : Option SelectedKey
  zoom_forever : Option EndlessZoom

/-- Source `Animation::resolve_times`: split absolute time into the bounded keyframe
time and the (possibly unbounded) zoom time. -/
noncomputable def Animation.resolve_times (an : Animation) (absolute_time : ℝ) : ℝ × ℝ :=
  if an.duration ≤ 0 then
    (0, if an.zoom_forever.isSome then absolute_time else 0)
  else
    let key_time :=
      if an.looping then rustRem absolute_time an.duration
      else min absolute_time an.duration
    let zoom_time := if an.zoom_forever.isSome then absolute_time else key_time
    (key_time, zoom_time)

/-- Source `Animation::sample_zoom`: endless zoom wins over the zoom keyframe track. -/
noncomputable def Animation.sample_zoom (an : Animation) (t dflt : ℝ) : ℝ :=
  match an.zoom_forever with
  | some zoom => zoom.value_at t
  | none => an.kf_zoom.sample t dflt

-- ------------------------- Palette -------------------------

/-- The built-in six-stop default palette of the source. -/
noncomputable def default_palette : List PaletteStop :=
  [⟨0, (0, 0.03, 0.39)⟩, ⟨0.16, (0.13, 0.42, 0.8)⟩, ⟨0.42, (0.93, 1, 1)⟩,
   ⟨0.6425, (1, 0.67, 0)⟩, ⟨0.8575, (0, 0.01, 0)⟩, ⟨1, (0, 0.03, 0.39)⟩]

/-- Boundary-synthesis stage of `normalized_stops`: given the position-sorted stops,
insert a stop at 0 when the first position is positive, and append a stop at 1 when
the last position is farther than `f32::EPSILON` from 1. -/
noncomputable def extendStops (sorted : List PaletteStop) : List PaletteStop :=
  let withFirst :=
    match sorted with
    | [] => []
    | first :: tail =>
      if first.pos > 0 then ({ pos := 0, color := first.color } : PaletteStop) :: first :: tail
      else first :: tail
  match withFirst.getLast? with
  | none => withFirst
  | some last =>
    if |last.pos - 1| > f32_epsilon then
      withFirst ++ [({ pos := 1, color := last.color } : PaletteStop)]
    else withFirst

/-- Source `normalized_stops`: empty input falls back to the default palette,
otherwise the stops are sorted by position and the `[0, 1]` boundary stops are
synthesized by `extendStops`. -/
noncomputable def normalized_stops (stops : List PaletteStop) : List PaletteStop :=
  match stops with
  | [] => default_palette
  | s0 :: rest => extendStops ((s0 :: rest).mergeSort (fun a b => decide (a.pos ≤ b.pos)))

/-- An RGB byte triple, one palette LUT entry. -/
abbrev Rgb8 := ℕ × ℕ × ℕ

/-- Inner scan of `build_palette`: walk the normalized stops, and at the first stop
whose position bounds `t` return the interpolated color; otherwise keep `color`
(the first stop's color) unchanged. -/
noncomputable def scanStops (t : ℝ) : PaletteStop → List PaletteStop → ℝ × ℝ × ℝ → ℝ × ℝ × ℝ
  | _, [], color => color
  | prev, stop :: rest, color =>
    if t ≤ stop.pos then
      let span := max (stop.pos - prev.pos) 1e-4
      let u := clampR ((t - prev.pos) / span) 0 1
      (lerp prev.color.1 stop.color.1 u, lerp prev.color.2.1 stop.color.2.1 u,
       lerp prev.color.2.2 stop.color.2.2 u)
    else scanStops t stop rest color

/-- Source `build_palette`: a `size`-entry LUT; entry `i` samples the normalized
stops at `fract(i/(size-1) + phase)` and stores the color as bytes. -/
noncomputable def build_palette (params : FractalParams) (size : ℕ) : List Rgb8 :=
  let stops := normalized_stops params.palette
  (List.range size).map (fun i : ℕ =>
    let t := rustFract ((i : ℝ) / ((size : ℝ) - 1) + params.palette_phase)
    let color :=
      match stops with
      | [] => (0, 0, 0)
      | prev :: rest => scanStops t prev rest prev.color
    (toByte (clampR color.1 0 1), toByte (clampR color.2.1 0 1), toByte (clampR color.2.2 0 1)))

/-- Source `sample_palette`: `lut[((len - 1) as f32 * t.clamp(0,1)) as usize]`; the
float-to-`usize` cast truncates toward zero. -/
noncomputable def sample_palette (lut : List Rgb8) (t : ℝ) : Rgb8 :=
  lut.getD (⌊((lut.length - 1 : ℕ) : ℝ) * clampR t 0 1⌋.toNat) (0, 0, 0)

/-- The spec's description of `sample_palette`, with a *rounded* index
(`lut[round((len-1) * clamp(t,0,1))]`); kept separate to compare with the source. -/
noncomputable def sample_palette_spec (lut : List Rgb8) (t : ℝ) : Rgb8 :=
  lut.getD (round (((lut.length - 1 : ℕ) : ℝ) * clampR t 0 1)).toNat (0, 0, 0)

-- ------------------------- Fractal evaluator -------------------------

/-- State of the per-pixel escape-time loop: the complex iterate `(zx, zy)`, the
running minimum orbit-trap distance, and the iteration count. -/
structure LoopState where
  zx : ℝ
  zy : ℝ
  trap_min : ℝ
  i : ℕ

/-- One iteration of the per-pixel loop of `render_fractal_cpu`: the per-kind
`z` update followed by the orbit-trap distance accumulation. -/
noncomputable def loopStep (p : FractalParams) (cx cy : ℝ) (s : LoopState) : LoopState :=
  let x2 := s.zx * s.zx
  let y2 := s.zy * s.zy
  let z :=
    match p.kind with
    | FractalKind.Mandelbrot | FractalKind.Julia => (x2 - y2 + cx, 2 * s.zx * s.zy + cy)
    | FractalKind.BurningShip => (|x2 - y2 + cx|, |2 * |s.zx| * |s.zy| + cy|)
    | FractalKind.Multibrot =>
      let r := Real.sqrt (x2 + y2)
      let theta := atan2 s.zy s.zx
      let r_p := r ^ p.power
      let th_p := theta * p.power
      (r_p * Real.cos th_p + cx, r_p * Real.sin th_p + cy)
  let trap_min :=
    if p.orbit.enabled then
      let dist :=
        match p.orbit.kind with
        | OrbitTrapKind.Point =>
          Real.sqrt ((z.1 - p.orbit.point.re) ^ 2 + (z.2 - p.orbit.point.im) ^ 2)
        | OrbitTrapKind.Circle => |Real.sqrt (z.1 * z.1 + z.2 * z.2) - p.orbit.radius|
        | OrbitTrapKind.Cross => min |z.1 - p.orbit.point.re| |z.2 - p.orbit.point.im|
      min s.trap_min dist
    else s.trap_min
  { zx := z.1, zy := z.2, trap_min := trap_min, i := s.i + 1 }

/-- The `while i < max_iter` loop, with the escape test `|z|² > escape_radius²`
checked before each step; `fuel` counts the remaining iterations. -/
noncomputable def loopGo (p : FractalParams) (cx cy : ℝ) : ℕ → LoopState → LoopState
  | 0, s => s
  | fuel + 1, s =>
    if s.zx * s.zx + s.zy * s.zy > p.escape_radius * p.escape_radius then s
    else loopGo p cx cy fuel (loopStep p cx cy s)

/-- Per-pixel evaluation at an already camera-transformed plane coordinate
`(rx, ry)`: initialize `(z, c)` per kind and run the loop `max_iter` times. -/
noncomputable def fractal_eval (p : FractalParams) (rx ry : ℝ) : LoopState :=
  let z0 : ℝ × ℝ := match p.kind with | FractalKind.Julia => (rx, ry) | _ => (0, 0)
  let c : ℝ × ℝ := match p.kind with | FractalKind.Julia => (p.c.re, p.c.im) | _ => (rx, ry)
  loopGo p c.1 c.2 p.max_iter { zx := z0.1, zy := z0.2, trap_min := f32_max, i := 0 }

/-- The smooth fractional escape value: `(i + 1 - log₂ log₂ |z|) / max_iter` on
escape, and the initial value 0 when the loop ran to `max_iter`. -/
noncomputable def smoothValue (p : FractalParams) (s : LoopState) : ℝ :=
  if s.i < p.max_iter then
    let r := max (Real.sqrt (s.zx * s.zx + s.zy * s.zy)) 1e-20
    ((s.i : ℝ) + 1 - Real.log (Real.log r / Real.log 2) / Real.log 2) / (p.max_iter : ℝ)
  else 0

/-- The per-pixel body of `render_fractal_cpu` at global pixel `(gx, gy)` of a
`full_w × full_h` frame: camera transform, escape-time loop, palette sampling,
exposure and gamma shading, orbit-trap blend; returns the RGB bytes. -/
noncomputable def pixelColor (p : FractalParams) (cam : Camera) (palette : List Rgb8)
    (full_w full_h gx gy : ℕ) : ℕ × ℕ × ℕ :=
  let cosr := Real.cos cam.rotation
  let sinr := Real.sin cam.rotation
  let v := (gy : ℝ) - (full_h : ℝ) / 2
  let u := (gx : ℝ) - (full_w : ℝ) / 2
  let rx := (u * cosr - v * sinr) / cam.scale + cam.center.re
  let ry := (u * sinr + v * cosr) / cam.scale + cam.center.im
  let s := fractal_eval p rx ry
  let smooth := smoothValue p s
  let col := sample_palette palette (rustFract smooth)
  let r0 := 1 - Real.exp (-((col.1 : ℝ) / 255) * p.exposure)
  let g0 := 1 - Real.exp (-((col.2.1 : ℝ) / 255) * p.exposure)
  let b0 := 1 - Real.exp (-((col.2.2 : ℝ) / 255) * p.exposure)
  let r1 := r0 ^ (1 / p.gamma)
  let g1 := g0 ^ (1 / p.gamma)
  let b1 := b0 ^ (1 / p.gamma)
  let shaded :=
    if p.orbit.enabled then
      let trap := clampR (Real.exp (-s.trap_min * p.orbit.softness)) 0 1
      (lerp r1 p.orbit.color.1 trap, lerp g1 p.orbit.color.2.1 trap,
       lerp b1 p.orbit.color.2.2 trap)
    else (r1, g1, b1)
  (toByte shaded.1, toByte shaded.2.1, toByte shaded.2.2)

/-- One byte of the RGBA8 pixel at `(gx, gy)`: channels 0..2 are the shaded RGB
bytes, channel 3 is the constant alpha 255. -/
noncomputable def pixelByte (p : FractalParams) (cam : Camera) (palette : List Rgb8)
    (full_w full_h gx gy ch : ℕ) : ℕ :=
  let c := pixelColor p cam palette full_w full_h gx gy
  if ch = 0 then c.1 else if ch = 1 then c.2.1 else if ch = 2 then c.2.2 else 255

-- ------------------------- Tiling / compositing -------------------------

/-- One rectangular sub-region of a full-frame render. -/
structure TileInfo where
  full_w : ℕ
  full_h : ℕ
  offset_x : ℕ
  offset_y : ℕ
  tile_w : ℕ
  tile_h : ℕ

/-- Source `TileInfo::full`: the single tile covering the whole frame. -/
def TileInfo.full (width height : ℕ) : TileInfo :=
  ⟨width, height, 0, 0, width, height⟩

/-- Inner `while x < width` loop of `tile_iterator`: one row of tiles at row
offset `y`, each `min stride (width - x)` wide and `min stride (height - y)` tall. -/
def tileRow (width height stride y x : ℕ) : List TileInfo :=
  if _h : x < width ∧ 0 < stride then
    ⟨width, height, x, y, min stride (width - x), min stride (height - y)⟩ ::
      tileRow width height stride y (x + stride)
  else []
termination_by width - x
decreasing_by omega

/-- Outer `while y < height` loop of `tile_iterator`. -/
def tileRows (width height stride y : ℕ) : List TileInfo :=
  if _h : y < height ∧ 0 < stride then
    tileRow width height stride y 0 ++ tileRows width height stride (y + stride)
  else []
termination_by height - y
decreasing_by omega

/-- Source `tile_iterator`: one full-frame tile when `tile = 0` and both dimensions
are at most 8192 (with `tile` re-set to 4096 above that), one full-frame tile when
the frame fits in a single tile, otherwise a row-major grid with stride
`max tile 256`. -/
def tile_iterator (width height tile : ℕ) : List TileInfo :=
  if tile = 0 ∧ width ≤ 8192 ∧ height ≤ 8192 then [TileInfo.full width height]
  else
    let t := if tile = 0 then 4096 else tile
    if width ≤ t ∧ height ≤ t then [TileInfo.full width height]
    else tileRows width height (max t 256) 0

/-- A flat RGBA8 byte buffer, modelled as a function from byte index to byte. -/
def Buf := ℕ → ℕ

/-- One `copy_from_slice` of `blit_tile`: bytes `[dstOff, dstOff+len)` of the target
are replaced by bytes starting at `srcOff` of the source. -/
def copyRange (target : Buf) (dstOff srcOff len : ℕ) (src : Buf) : Buf :=
  fun i => if dstOff ≤ i ∧ i < dstOff + len then src (srcOff + (i - dstOff)) else target i

/-- Source `blit_tile`: copy each tile row into the matching rectangle of the
full-frame buffer. -/
def blit_tile (target : Buf) (full_width : ℕ) (tile : TileInfo) (tile_pixels : Buf) : Buf :=
  (List.range tile.tile_h).foldl
    (fun tgt ty =>
      copyRange tgt (((tile.offset_y + ty) * full_width + tile.offset_x) * 4)
        (ty * tile.tile_w * 4) (tile.tile_w * 4) tile_pixels)
    target

/-- Source `render_fractal_cpu`: the row-major RGBA8 byte buffer of one tile, each
pixel computed from its global coordinates and the full frame dimensions. -/
noncomputable def render_fractal_cpu (tile : TileInfo) (p : FractalParams) (cam : Camera)
    (palette : List Rgb8) : Buf :=
  fun idx =>
    if idx < tile.tile_w * tile.tile_h * 4 then
      pixelByte p cam palette tile.full_w tile.full_h
        (tile.offset_x + (idx / 4) % tile.tile_w) (tile.offset_y + (idx / 4) / tile.tile_w)
        (idx % 4)
    else 0

/-- Source `render_image` on the CPU backend: build the 2048-entry palette LUT, run
`tile_iterator`, render each tile with `render_fractal_cpu` and composite with
`blit_tile` into a zero-initialized frame. -/
noncomputable def render_image (size : ℕ × ℕ) (p : FractalParams) (cam : Camera)
    (tile_override : ℕ) : Buf :=
  let palette := build_palette p 2048
  (tile_iterator size.1 size.2 tile_override).foldl
    (fun frame tile => blit_tile frame size.1 tile (render_fractal_cpu tile p cam palette))
    (fun _ => 0)

-- ------------------------- Export -------------------------

/-- The four export codecs. -/
inductive VideoCodec
  | H264
  | ProRes
  | Vp9
  | Av1
deriving DecidableEq

/-- Export settings of the source (the output path, a filesystem value, is omitted). -/
structure ExportSettings where
  width : ℕ
  height : ℕ
  fps : ℕ
  duration : ℝ
  crf : ℕ
  codec : VideoCodec
  tile_size : ℕ

/-- The frame count of `export_video_blocking`:
`(duration * fps as f32).round() as u32`. -/
noncomputable def export_total (e : ExportSettings) : ℕ :=
  (rustRound (e.duration * (e.fps : ℝ))).toNat

/-- The sequence of sample times of the export loop: frame `f` is rendered at
`t = f / fps`, with no dependence on wall-clock time. -/
noncomputable def export_frame_times (e : ExportSettings) : List ℝ :=
  (List.range (export_total e)).map (fun frame : ℕ => (frame : ℝ) / (e.fps : ℝ))

/-- Source `FractalParams::default()`. -/
noncomputable def default_params : FractalParams :=
  { kind := FractalKind.Mandelbrot, max_iter := 800, escape_radius := 4, power := 2,
    c := { re := -0.8, im := 0.156 }, palette_phase := 0, exposure := 1, gamma := 2.2,
    palette := default_palette, orbit := default_orbit }

-- ------------------------- Theorems: animation time resolution -------------------------

/-- Animation with duration 5 s, looping on, endless zoom absent (other fields as the
source defaults). -/
noncomputable def anim5 : Animation :=
  { fps := 30, duration := 5, playing := false, looping := true, t := 0,
    kf_zoom := ⟨[]⟩, kf_palette := ⟨[]⟩, kf_center_x := ⟨[]⟩, kf_center_y := ⟨[]⟩,
    selection := none, zoom_forever := none }

/-- C5: `resolve_times` returns `(0, absolute_t or 0)` when `duration ≤ 0`; otherwise
the key time is `absolute_t % duration` when looping, else `min absolute_t duration`,
and the zoom time is `absolute_t` when endless zoom is active, else the key time.
With duration 5, looping, no endless zoom, `absolute_t = 12` it returns `(2, 2)`. -/
theorem resolve_times_spec :
    (∀ (an : Animation) (a : ℝ), an.duration ≤ 0 →
      an.resolve_times a = (0, if an.zoom_forever.isSome then a else 0)) ∧
    (∀ (an : Animation) (a : ℝ), 0 < an.duration →
      an.resolve_times a =
        ((if an.looping then rustRem a an.duration else min a an.duration),
         if an.zoom_forever.isSome then a
         else if an.looping then rustRem a an.duration else min a an.duration)) ∧
    anim5.resolve_times 12 = (2, 2) := by
  refine ⟨?_, ?_, ?_⟩
  · intro an a h
    simp [Animation.resolve_times, h]
  · intro an a h
    rw [Animation.resolve_times, if_neg (by linarith)]
  · have h1 : rustTrunc ((12 : ℝ) / 5) = 2 := by
      rw [rustTrunc, if_pos (by norm_num)]
      norm_num
    rw [Animation.resolve_times, if_neg (by norm_num [anim5])]
    simp [anim5, rustRem, h1]
    norm_num

-- ------------------------- Theorems: endless zoom -------------------------

/-- C6: `value_at` computes `start_scale * factor ^ max t 0` with the speed clamped to
`[0.5, 0.995]` and `factor = speed` (or `1/speed` when reversed); for speed 0.9 and a
positive start scale, `sample_zoom` under endless zoom equals the start scale at
`t = 0`, is strictly decreasing on `t ≥ 0`, and strictly increasing when reversed. -/
theorem endless_zoom_scale :
    (∀ (z : EndlessZoom) (t : ℝ),
      z.value_at t =
        z.start_scale *
          (if z.reverse then 1 / clampR z.speed 0.5 0.995 else clampR z.speed 0.5 0.995) ^
            (max t 0)) ∧
    (∀ (an : Animation) (S d : ℝ), an.zoom_forever = some ⟨S, 0.9, false, false⟩ →
      an.sample_zoom 0 d = S) ∧
    (∀ (an : Animation) (S d t₁ t₂ : ℝ), an.zoom_forever = some ⟨S, 0.9, false, false⟩ →
      0 < S → 0 ≤ t₁ → t₁ < t₂ → an.sample_zoom t₂ d < an.sample_zoom t₁ d) ∧
    (∀ (an : Animation) (S d t₁ t₂ : ℝ), an.zoom_forever = some ⟨S, 0.9, true, false⟩ →
      0 < S → 0 ≤ t₁ → t₁ < t₂ → an.sample_zoom t₁ d < an.sample_zoom t₂ d) := by
  have hclamp : clampR (0.9 : ℝ) 0.5 0.995 = 0.9 := by
    rw [clampR]; norm_num
  refine ⟨?_, ?_, ?_, ?_⟩
  · intro z t
    rfl
  · intro an S d h
    rw [Animation.sample_zoom, h]
    simp only [EndlessZoom.value_at, hclamp]
    rw [if_neg (by simp), max_self, Real.rpow_zero, mul_one]
  · intro an S d t₁ t₂ h hS h1 h12
    rw [Animation.sample_zoom, Animation.sample_zoom, h]
    simp only [EndlessZoom.value_at, hclamp]
    rw [if_neg (by simp), max_eq_left h1, max_eq_left (by linarith)]
    exact mul_lt_mul_of_pos_left
      (Real.rpow_lt_rpow_of_exponent_gt (by norm_num) (by norm_num) h12) hS
  · intro an S d t₁ t₂ h hS h1 h12
    rw [Animation.sample_zoom, Animation.sample_zoom, h]
    simp only [EndlessZoom.value_at, hclamp]
    rw [if_pos (by simp), max_eq_left h1, max_eq_left (by linarith)]
    exact mul_lt_mul_of_pos_left
      (Real.rpow_lt_rpow_of_exponent_lt (by norm_num) h12) hS

-- ------------------------- Theorems: export loop -------------------------

/-- Export settings of a 1-second, 10-fps clip (remaining fields as the source
defaults). -/
noncomputable def ex10 : ExportSettings :=
  { width := 1920, height := 1080, fps := 10, duration := 1, crf := 20,
    codec := VideoCodec.H264, tile_size := 2048 }

/-- C9: the export loop samples exactly `round(duration * fps)` frames, frame `f`
at time `f / fps`; with positive fps all sample times are distinct, and the
1-second 10-fps clip yields exactly the ten times 0, 0.1, …, 0.9. -/
theorem export_frame_sampling :
    (∀ e : ExportSettings,
      (export_frame_times e).length = (rustRound (e.duration * (e.fps : ℝ))).toNat) ∧
    (∀ (e : ExportSettings) (f : ℕ), f < export_total e →
      (export_frame_times e)[f]? = some ((f : ℝ) / (e.fps : ℝ))) ∧
    (∀ e : ExportSettings, 0 < e.fps → (export_frame_times e).Nodup) ∧
    (export_total ex10 = 10 ∧
      export_frame_times ex10 =
        [0, 1 / 10, 2 / 10, 3 / 10, 4 / 10, 5 / 10, 6 / 10, 7 / 10, 8 / 10, 9 / 10]) := by
  have htotal : export_total ex10 = 10 := by
    have h1 : rustRound (ex10.duration * (ex10.fps : ℝ)) = 10 := by
      rw [rustRound, if_pos (by norm_num [ex10])]
      norm_num [ex10]
    rw [export_total, h1]
    rfl
  refine ⟨?_, ?_, ?_, htotal, ?_⟩
  · intro e
    rw [export_frame_times, List.length_map, List.length_range, export_total]
  · intro e f hf
    simp [export_frame_times, List.getElem?_range hf]
  · intro e hfps
    have hne : ((e.fps : ℕ) : ℝ) ≠ 0 := Nat.cast_ne_zero.mpr (Nat.pos_iff_ne_zero.mp hfps)
    have hinj : Function.Injective (fun k : ℕ => (k : ℝ) / (e.fps : ℝ)) := by
      intro a b hab
      simp only at hab
      have h2 := congrArg (fun x : ℝ => x * (e.fps : ℝ)) hab
      simp only [div_mul_cancel₀ _ hne] at h2
      exact_mod_cast h2
    exact List.Nodup.map hinj (List.nodup_range _)
  · rw [export_frame_times, htotal]
    norm_num [List.range_succ, ex10]

-- ------------------------- Theorems: interior points -------------------------

/-- Mandelbrot parameters with `max_iter = 1000` (other fields the source defaults). -/
noncomputable def mandelbrot_1000 : FractalParams :=
  { default_params with max_iter := 1000 }

/-- The Mandelbrot loop run from the origin with `c = 0` keeps `z = 0` and advances
the iteration count by exactly the fuel: the orbit never escapes. -/
lemma loopGo_zero_state (p : FractalParams) (hk : p.kind = FractalKind.Mandelbrot) :
    ∀ (n : ℕ) (s : LoopState), s.zx = 0 → s.zy = 0 →
      (loopGo p 0 0 n s).zx = 0 ∧ (loopGo p 0 0 n s).zy = 0 ∧
        (loopGo p 0 0 n s).i = s.i + n := by
  intro n
  induction n with
  | zero => intro s h1 h2; simp [loopGo, h1, h2]
  | succ m ih =>
    intro s h1 h2
    have hesc : ¬ s.zx * s.zx + s.zy * s.zy > p.escape_radius * p.escape_radius := by
      rw [h1, h2]
      simpa using mul_self_nonneg p.escape_radius
    rw [loopGo, if_neg hesc]
    have hzx : (loopStep p 0 0 s).zx = 0 := by simp [loopStep, hk, h1, h2]
    have hzy : (loopStep p 0 0 s).zy = 0 := by simp [loopStep, hk, h1, h2]
    have hi : (loopStep p 0 0 s).i = s.i + 1 := by simp [loopStep]
    obtain ⟨a, b, c⟩ := ih (loopStep p 0 0 s) hzx hzy
    exact ⟨a, b, by rw [c, hi]; omega⟩

/-- C4: whenever the loop never escapes (`iteration_count = max_iter`) the smooth
fraction is exactly 0; in particular the Mandelbrot evaluator at plane coordinate
`(0, 0)` with `max_iter = 1000` yields iteration count 1000 and smooth fraction 0. -/
theorem interior_smooth_zero :
    (∀ (p : FractalParams) (rx ry : ℝ),
      (fractal_eval p rx ry).i = p.max_iter → smoothValue p (fractal_eval p rx ry) = 0) ∧
    (fractal_eval mandelbrot_1000 0 0).i = 1000 ∧
      smoothValue mandelbrot_1000 (fractal_eval mandelbrot_1000 0 0) = 0 := by
  have hgen : ∀ (p : FractalParams) (rx ry : ℝ),
      (fractal_eval p rx ry).i = p.max_iter → smoothValue p (fractal_eval p rx ry) = 0 := by
    intro p rx ry h
    rw [smoothValue, if_neg (by omega)]
  have hk : mandelbrot_1000.kind = FractalKind.Mandelbrot := rfl
  have heval : fractal_eval mandelbrot_1000 0 0 =
      loopGo mandelbrot_1000 0 0 1000 { zx := 0, zy := 0, trap_min := f32_max, i := 0 } := rfl
  have h0 := loopGo_zero_state mandelbrot_1000 hk 1000
    { zx := 0, zy := 0, trap_min := f32_max, i := 0 } rfl rfl
  have hi : (fractal_eval mandelbrot_1000 0 0).i = 1000 := by
    rw [heval]; exact h0.2.2
  exact ⟨hgen, hi, hgen mandelbrot_1000 0 0 hi⟩

-- ------------------------- Theorems: keyframe sampling -------------------------

/-- Keys sorted (non-strictly) by time. -/
def sortedByTime (ks : Keyframes) : Prop :=
  ks.keys.Pairwise (fun a b => a.t ≤ b.t)

/-- The source invariant on tracks: keys sorted by time with at most one key per
time within the `1e-4` epsilon, i.e. successive times at least `1e-4` apart. -/
def sepByTime (ks : Keyframes) : Prop :=
  ks.keys.Pairwise (fun a b => a.t + 1e-4 ≤ b.t)

/-- All five easing curves fix 0. -/
lemma easing_apply_zero (e : Easing) : e.apply 0 = 0 := by
  cases e <;> norm_num [Easing.apply]

/-- All five easing curves fix 1. -/
lemma easing_apply_one (e : Easing) : e.apply 1 = 1 := by
  cases e <;> norm_num [Easing.apply]

/-- When `t` is at or before both the previous key and the next key, the scan clamps
the interpolation fraction to 0 and returns the previous key's value. -/
lemma sampleGo_before (t : ℝ) (prev k : Keyframe) (rest : List Keyframe)
    (hle : t ≤ k.t) (hpt : t ≤ prev.t) :
    sampleGo t prev (k :: rest) = prev.v := by
  rw [sampleGo, if_pos hle]
  have hd : (0 : ℝ) < max (k.t - prev.t) 1e-4 := lt_max_of_lt_right (by norm_num)
  have hq : (t - prev.t) / max (k.t - prev.t) 1e-4 ≤ 0 :=
    div_nonpos_of_nonpos_of_nonneg (by linarith) hd.le
  have hcl : clampR ((t - prev.t) / max (k.t - prev.t) 1e-4) 0 1 = 0 := by
    rw [clampR, max_eq_right hq]
    exact min_eq_left (by norm_num)
  rw [hcl, easing_apply_zero, lerp]
  ring

/-- When `t` is strictly past every key of the scan list, the scan returns the last
key's value. -/
lemma sampleGo_after (t : ℝ) : ∀ (l : List Keyframe) (prev last : Keyframe),
    (prev :: l).getLast? = some last → (∀ k ∈ l, k.t < t) →
    sampleGo t prev l = last.v := by
  intro l
  induction l with
  | nil =>
    intro prev last hl _
    simp only [List.getLast?_singleton, Option.some_inj] at hl
    rw [sampleGo, hl]
  | cons k rest ih =>
    intro prev last hl h
    rw [sampleGo, if_neg (not_le.mpr (h k (by simp)))]
    exact ih k last (by rw [← List.getLast?_cons_cons]; exact hl)
      (fun x hx => h x (by simp [hx]))

/-- Sampling exactly at a key's time inside the scan list returns that key's value,
for any easing, given the separation invariant. -/
lemma sampleGo_exact (key : Keyframe) : ∀ (l : List Keyframe) (prev : Keyframe),
    (prev :: l).Pairwise (fun a b => a.t + 1e-4 ≤ b.t) → key ∈ l →
    sampleGo key.t prev l = key.v := by
  intro l
  induction l with
  | nil => intro prev _ h; simp at h
  | cons k rest ih =>
    intro prev hp hm
    rcases List.mem_cons.mp hm with rfl | hm2
    · rw [sampleGo, if_pos le_rfl]
      have hgap : prev.t + 1e-4 ≤ key.t := (List.pairwise_cons.mp hp).1 key (by simp)
      have hden : max (key.t - prev.t) 1e-4 = key.t - prev.t := max_eq_left (by linarith)
      have hdenpos : (0 : ℝ) < key.t - prev.t := by
        have h14 : (0 : ℝ) < 1e-4 := by norm_num
        linarith
      have hu : clampR ((key.t - prev.t) / max (key.t - prev.t) 1e-4) 0 1 = 1 := by
        rw [hden, div_self (ne_of_gt hdenpos), clampR, max_eq_left (by norm_num)]
        exact min_self 1
      rw [hu, easing_apply_one, lerp]
      ring
    · have hp2 := (List.pairwise_cons.mp hp).2
      have hgap : k.t + 1e-4 ≤ key.t := (List.pairwise_cons.mp hp2).1 key hm2
      have h14 : (0 : ℝ) < 1e-4 := by norm_num
      rw [sampleGo, if_neg (not_le.mpr (by linarith))]
      exact ih k hp2 hm2

/-- In a sorted key list every key's time is at most the last key's time. -/
lemma le_getLast_of_sorted : ∀ (l : List Keyframe),
    l.Pairwise (fun a b => a.t ≤ b.t) → ∀ last, l.getLast? = some last →
    ∀ k ∈ l, k.t ≤ last.t := by
  intro l
  induction l with
  | nil => intro _ last h; simp at h
  | cons x rest ih =>
    intro hp last hl k hk
    cases rest with
    | nil =>
      simp only [List.getLast?_singleton, Option.some_inj] at hl
      simp only [List.mem_singleton] at hk
      rw [hk, hl]
    | cons y rest2 =>
      rw [List.getLast?_cons_cons] at hl
      have hlast_mem : last ∈ y :: rest2 := List.mem_of_getLast?_eq_some hl
      rcases List.mem_cons.mp hk with rfl | hk2
      · exact ((List.pairwise_cons.mp hp).1 last hlast_mem)
      · exact ih (List.pairwise_cons.mp hp).2 last hl k hk2

/-- C7: track sampling clamps to the boundary key's value before the first and after
the last key, returns the single key's value (or the caller default when empty), and
sampling exactly at any key's time returns that key's value regardless of easing,
under the at-most-one-key-per-time invariant. -/
theorem keyframe_sample_boundaries :
    (∀ (ks : Keyframes) (t d : ℝ), ks.keys = [] → ks.sample t d = d) ∧
    (∀ (ks : Keyframes) (t d : ℝ) (k : Keyframe), ks.keys = [k] → ks.sample t d = k.v) ∧
    (∀ (ks : Keyframes) (t d : ℝ) (k : Keyframe) (l : List Keyframe),
      ks.keys = k :: l → sortedByTime ks → t ≤ k.t → ks.sample t d = k.v) ∧
    (∀ (ks : Keyframes) (t d : ℝ) (last : Keyframe), sortedByTime ks →
      ks.keys.getLast? = some last → last.t < t → ks.sample t d = last.v) ∧
    (∀ (ks : Keyframes) (d : ℝ) (key : Keyframe), sepByTime ks → key ∈ ks.keys →
      ks.sample key.t d = key.v) := by
  refine ⟨?_, ?_, ?_, ?_, ?_⟩
  · intro ks t d h
    obtain ⟨keys⟩ := ks
    simp only at h
    subst h
    rfl
  · intro ks t d k h
    obtain ⟨keys⟩ := ks
    simp only at h
    subst h
    rfl
  · intro ks t d k l h hs ht
    obtain ⟨keys⟩ := ks
    simp only at h
    subst h
    cases l with
    | nil => rfl
    | cons k1 rest =>
      rw [sortedByTime] at hs
      have h01 : k.t ≤ k1.t := (List.pairwise_cons.mp hs).1 k1 (by simp)
      show sampleGo t k (k1 :: rest) = k.v
      exact sampleGo_before t k k1 rest (le_trans ht h01) ht
  · intro ks t d last hs hl ht
    obtain ⟨keys⟩ := ks
    rw [sortedByTime] at hs
    simp only at hs hl
    have hall : ∀ k ∈ keys, k.t < t := by
      intro k hk
      exact lt_of_le_of_lt (le_getLast_of_sorted keys hs last hl k hk) ht
    cases keys with
    | nil => simp at hl
    | cons k0 rest =>
      cases rest with
      | nil =>
        simp only [List.getLast?_singleton, Option.some_inj] at hl
        show k0.v = last.v
        rw [hl]
      | cons k1 rest2 =>
        show sampleGo t k0 (k1 :: rest2) = last.v
        exact sampleGo_after t (k1 :: rest2) k0 last hl
          (fun x hx => hall x (by simp [List.mem_cons.mp hx]))
  · intro ks d key hsep hm
    obtain ⟨keys⟩ := ks
    rw [sepByTime] at hsep
    simp only at hsep hm
    cases keys with
    | nil => simp at hm
    | cons k0 rest =>
      cases rest with
      | nil =>
        simp only [List.mem_singleton] at hm
        show k0.v = key.v
        rw [hm]
      | cons k1 rest2 =>
        show sampleGo key.t k0 (k1 :: rest2) = key.v
        rcases List.mem_cons.mp hm with rfl | hm2
        · have hgap : key.t + 1e-4 ≤ k1.t := (List.pairwise_cons.mp hsep).1 k1 (by simp)
          have h14 : (0 : ℝ) < 1e-4 := by norm_num
          exact sampleGo_before key.t key k1 rest2 (by linarith) le_rfl
        · exact sampleGo_exact key (k1 :: rest2) k0 hsep hm2

-- ------------------------- Theorems: keyframe mutations -------------------------

/-- When a key within epsilon of `t` exists, the find-and-overwrite path fires and
changes neither the key times nor the key count. -/
lemma overwriteFirst_found (t v : ℝ) : ∀ l : List Keyframe, (∃ k ∈ l, |k.t - t| < 1e-4) →
    ∃ l2, overwriteFirst t v l = some l2 ∧
      l2.map (fun k => k.t) = l.map (fun k => k.t) ∧ l2.length = l.length := by
  intro l
  induction l with
  | nil => intro h; simp at h
  | cons k rest ih =>
    intro h
    by_cases hk : |k.t - t| < 1e-4
    · exact ⟨{ k with v := v } :: rest, by rw [overwriteFirst, if_pos hk], by simp, by simp⟩
    · obtain ⟨k2, hk2, habs⟩ := h
      rcases List.mem_cons.mp hk2 with rfl | hmem
      · exact absurd habs hk
      · obtain ⟨l2, h1, h2, h3⟩ := ih ⟨k2, hmem, habs⟩
        exact ⟨k :: l2, by rw [overwriteFirst, if_neg hk, h1]; rfl, by simp [h2], by simp [h3]⟩

/-- When no key is within epsilon of `t`, the find-and-overwrite path reports `none`. -/
lemma overwriteFirst_none (t v : ℝ) : ∀ l : List Keyframe,
    (∀ k ∈ l, ¬ |k.t - t| < 1e-4) → overwriteFirst t v l = none := by
  intro l
  induction l with
  | nil => intro _; rfl
  | cons k rest ih =>
    intro h
    rw [overwriteFirst, if_neg (h k (by simp)), ih (fun x hx => h x (by simp [hx]))]
    rfl

/-- Transitivity of the Boolean time comparison used by the upsert sort. -/
lemma keyLe_trans : ∀ a b c : Keyframe,
    (fun a b : Keyframe => decide (a.t ≤ b.t)) a b →
    (fun a b : Keyframe => decide (a.t ≤ b.t)) b c →
    (fun a b : Keyframe => decide (a.t ≤ b.t)) a c := by
  intro a b c hab hbc
  simp only [decide_eq_true_eq] at *
  exact le_trans hab hbc

/-- Totality of the Boolean time comparison used by the upsert sort. -/
lemma keyLe_total : ∀ a b : Keyframe,
    ((fun a b : Keyframe => decide (a.t ≤ b.t)) a b ||
     (fun a b : Keyframe => decide (a.t ≤ b.t)) b a) := by
  intro a b
  simpa using le_total a.t b.t

/-- Pairwise relations that only inspect key times transfer along equal time lists. -/
lemma pairwise_times_iff (R : ℝ → ℝ → Prop) (l1 l2 : List Keyframe)
    (h : l1.map (fun k => k.t) = l2.map (fun k => k.t)) :
    l1.Pairwise (fun a b => R a.t b.t) ↔ l2.Pairwise (fun a b => R a.t b.t) := by
  have e1 : l1.Pairwise (fun a b => R a.t b.t) ↔ (l1.map (fun k => k.t)).Pairwise R :=
    (List.pairwise_map).symm
  have e2 : l2.Pairwise (fun a b => R a.t b.t) ↔ (l2.map (fun k => k.t)).Pairwise R :=
    (List.pairwise_map).symm
  rw [e1, e2, h]

/-- C8 counterexample: dragging the first key of the sorted track
`[(t=1), (t=2)]` to `rel = 1` of a 5-second timeline rewrites its time to 5 in
place, leaving the sequence `[(t=5), (t=2)]`, which is not sorted. -/
theorem drag_unsorts_keys :
    ¬ sortedByTime
        (drag_key_time ⟨[⟨1, 0, Easing.Linear⟩, ⟨2, 0, Easing.Linear⟩]⟩ 0 1 5) := by
  intro h
  have hc : clampR (1 : ℝ) 0 1 * 5 = 5 := by rw [clampR]; norm_num
  simp only [drag_key_time, sortedByTime, List.getElem?_cons_zero, List.set] at h
  rw [hc] at h
  have h52 := (List.pairwise_cons.mp h).1 ⟨2, 0, Easing.Linear⟩ (by simp)
  norm_num at h52

/-- C8 as amended: `upsert` at a time within epsilon of an existing key overwrites in
place, preserving the times, the count, sortedness and epsilon-separation; `upsert`
at a new time re-sorts, adds exactly one key and preserves epsilon-separation; and
`clamp_all` preserves sortedness.  (The timeline-drag mutation, by contrast, is shown
above not to preserve sortedness.) -/
theorem keyframe_mutations_invariant :
    (∀ (ks : Keyframes) (t v : ℝ), (∃ k ∈ ks.keys, |k.t - t| < 1e-4) →
      (ks.upsert t v).keys.map (fun k => k.t) = ks.keys.map (fun k => k.t) ∧
      (ks.upsert t v).keys.length = ks.keys.length ∧
      (sortedByTime ks → sortedByTime (ks.upsert t v)) ∧
      (sepByTime ks → sepByTime (ks.upsert t v))) ∧
    (∀ (ks : Keyframes) (t v : ℝ), (∀ k ∈ ks.keys, ¬ |k.t - t| < 1e-4) →
      sortedByTime (ks.upsert t v) ∧
      (ks.upsert t v).keys.length = ks.keys.length + 1 ∧
      (sepByTime ks → sepByTime (ks.upsert t v))) ∧
    (∀ (ks : Keyframes) (d : ℝ), sortedByTime ks → sortedByTime (ks.clamp_all d)) := by
  refine ⟨?_, ?_, ?_⟩
  · intro ks t v h
    obtain ⟨l2, h1, h2, h3⟩ := overwriteFirst_found t v ks.keys h
    have hup : (ks.upsert t v).keys = l2 := by
      rw [Keyframes.upsert, h1]
    have hmap : (ks.upsert t v).keys.map (fun k => k.t) = ks.keys.map (fun k => k.t) := by
      rw [hup]; exact h2
    refine ⟨hmap, by rw [hup]; exact h3, ?_, ?_⟩
    · intro hs
      rw [sortedByTime] at hs ⊢
      exact (pairwise_times_iff (fun x y => x ≤ y) (ks.upsert t v).keys ks.keys hmap).mpr hs
    · intro hs
      rw [sepByTime] at hs ⊢
      exact (pairwise_times_iff (fun x y => x + 1e-4 ≤ y) (ks.upsert t v).keys ks.keys
        hmap).mpr hs
  · intro ks t v h
    have hnone := overwriteFirst_none t v ks.keys h
    have hup : (ks.upsert t v).keys =
        (ks.keys ++ [({ t := t, v := v, easing := Easing.Linear } : Keyframe)]).mergeSort
          (fun a b => decide (a.t ≤ b.t)) := by
      rw [Keyframes.upsert, hnone]
    have hsorted : sortedByTime (ks.upsert t v) := by
      rw [sortedByTime, hup]
      exact (List.sorted_mergeSort keyLe_trans keyLe_total _).imp
        (fun hab => by simpa using hab)
    refine ⟨hsorted, ?_, ?_⟩
    · rw [hup, List.length_mergeSort, List.length_append]
      rfl
    · intro hsep
      have h14 : (0 : ℝ) < 1e-4 := by norm_num
      have hdist0 : (ks.keys ++ [({ t := t, v := v, easing := Easing.Linear } : Keyframe)]).Pairwise
          (fun a b => 1e-4 ≤ |a.t - b.t|) := by
        rw [List.pairwise_append]
        refine ⟨hsep.imp (fun {a b} hab => ?_), by simp, ?_⟩
        · calc (1e-4 : ℝ) ≤ b.t - a.t := by linarith
            _ ≤ |b.t - a.t| := le_abs_self _
            _ = |a.t - b.t| := abs_sub_comm _ _
        · intro a ha b hb
          simp only [List.mem_singleton] at hb
          subst hb
          exact le_of_not_lt (h a ha)
      have hperm : ((ks.keys ++ [({ t := t, v := v, easing := Easing.Linear } : Keyframe)]).mergeSort
          (fun a b => decide (a.t ≤ b.t))).Perm
          (ks.keys ++ [({ t := t, v := v, easing := Easing.Linear } : Keyframe)]) :=
        List.mergeSort_perm _ _
      have hdist : ((ks.keys ++ [({ t := t, v := v, easing := Easing.Linear } : Keyframe)]).mergeSort
          (fun a b => decide (a.t ≤ b.t))).Pairwise (fun a b => 1e-4 ≤ |a.t - b.t|) :=
        (hperm.pairwise_iff (fun {a b} hab => by rwa [abs_sub_comm])).mpr hdist0
      rw [sepByTime, hup]
      have hboth := hsorted
      rw [sortedByTime, hup] at hboth
      exact (hboth.and hdist).imp (fun {a b} hab => by
        have habs : |a.t - b.t| = -(a.t - b.t) := abs_of_nonpos (by linarith [hab.1])
        have := hab.2
        rw [habs] at this
        linarith)
  · intro ks d hs
    rw [sortedByTime, Keyframes.clamp_all]
    simp only
    exact List.Pairwise.map _ (fun a b hab =>
      min_le_min (max_le_max hab le_rfl) le_rfl) hs

-- ------------------------- Theorems: palette normalization and sampling -------------------------

/-- Transitivity of the Boolean position comparison used by the palette sort. -/
lemma stopLe_trans : ∀ a b c : PaletteStop,
    (fun a b : PaletteStop => decide (a.pos ≤ b.pos)) a b →
    (fun a b : PaletteStop => decide (a.pos ≤ b.pos)) b c →
    (fun a b : PaletteStop => decide (a.pos ≤ b.pos)) a c := by
  intro a b c hab hbc
  simp only [decide_eq_true_eq] at *
  exact le_trans hab hbc

/-- Totality of the Boolean position comparison used by the palette sort. -/
lemma stopLe_total : ∀ a b : PaletteStop,
    ((fun a b : PaletteStop => decide (a.pos ≤ b.pos)) a b ||
     (fun a b : PaletteStop => decide (a.pos ≤ b.pos)) b a) := by
  intro a b
  simpa using le_total a.pos b.pos

/-- The boundary-synthesis stage on a sorted stop list with positions in `[0, 1]`
yields a sorted list that starts at position 0 and ends within float epsilon of 1. -/
lemma extendStops_spec (first : PaletteStop) (tail : List PaletteStop)
    (hsort : (first :: tail).Pairwise (fun a b => a.pos ≤ b.pos))
    (hmem : ∀ s ∈ first :: tail, 0 ≤ s.pos ∧ s.pos ≤ 1) :
    (extendStops (first :: tail)).Pairwise (fun a b => a.pos ≤ b.pos) ∧
    (∃ h0 rest, extendStops (first :: tail) = h0 :: rest ∧ h0.pos = 0) ∧
    (∃ last, (extendStops (first :: tail)).getLast? = some last ∧
      |last.pos - 1| ≤ f32_epsilon) := by
  have hwf : ∃ h0 rest0, (if first.pos > 0 then
        ({ pos := 0, color := first.color } : PaletteStop) :: first :: tail
      else first :: tail) = h0 :: rest0 ∧ h0.pos = 0 ∧
      (h0 :: rest0).Pairwise (fun a b => a.pos ≤ b.pos) ∧
      (∀ s ∈ h0 :: rest0, 0 ≤ s.pos ∧ s.pos ≤ 1) := by
    by_cases hf : first.pos > 0
    · refine ⟨{ pos := 0, color := first.color }, first :: tail, by rw [if_pos hf], rfl, ?_, ?_⟩
      · exact List.pairwise_cons.mpr ⟨fun b hb => (hmem b hb).1, hsort⟩
      · intro s hs
        rcases List.mem_cons.mp hs with rfl | hs2
        · exact ⟨le_refl 0, zero_le_one⟩
        · exact hmem s hs2
    · refine ⟨first, tail, by rw [if_neg hf], ?_, hsort, hmem⟩
      exact le_antisymm (not_lt.mp hf) (hmem first (by simp)).1
  obtain ⟨h0, rest0, hif, h0pos, hp, hm⟩ := hwf
  rw [extendStops]
  simp only [hif]
  have hlast : ∃ lastw, (h0 :: rest0).getLast? = some lastw := by
    cases rest0 with
    | nil => exact ⟨h0, rfl⟩
    | cons y l => exact ⟨(y :: l).getLast (by simp), by rw [List.getLast?_cons_cons,
        List.getLast?_eq_getLast _ (by simp)]⟩
  obtain ⟨lastw, hlw⟩ := hlast
  have hlw_mem : lastw ∈ h0 :: rest0 := List.mem_of_getLast?_eq_some hlw
  rw [hlw]
  dsimp only
  by_cases hball : |lastw.pos - 1| > f32_epsilon
  · rw [if_pos hball]
    refine ⟨?_, ⟨h0, rest0 ++ [{ pos := 1, color := lastw.color }], by simp, h0pos⟩, ?_⟩
    · rw [List.pairwise_append]
      refine ⟨hp, by simp, ?_⟩
      intro a ha b hb
      simp only [List.mem_singleton] at hb
      subst hb
      exact (hm a ha).2
    · refine ⟨{ pos := 1, color := lastw.color }, ?_, ?_⟩
      · exact List.getLast?_concat _
      · norm_num [f32_epsilon]
  · rw [if_neg hball]
    exact ⟨hp, ⟨h0, rest0, rfl, h0pos⟩, ⟨lastw, hlw, not_lt.mp hball⟩⟩

/-- C2 as amended: `normalized_stops` returns the built-in default palette exactly
for the empty stop list, and for every non-empty stop list with positions in `[0, 1]`
it returns a sorted list that starts with a stop at position 0 and whose last stop is
within `f32::EPSILON` of position 1. -/
theorem normalized_stops_cover :
    normalized_stops [] = default_palette ∧
    (∀ stops : List PaletteStop, stops ≠ [] → (∀ s ∈ stops, 0 ≤ s.pos ∧ s.pos ≤ 1) →
      (normalized_stops stops).Pairwise (fun a b => a.pos ≤ b.pos) ∧
      (∃ h0 rest, normalized_stops stops = h0 :: rest ∧ h0.pos = 0) ∧
      (∃ last, (normalized_stops stops).getLast? = some last ∧
        |last.pos - 1| ≤ f32_epsilon)) := by
  refine ⟨rfl, ?_⟩
  intro stops hne hrange
  cases stops with
  | nil => exact absurd rfl hne
  | cons s0 rest =>
    have hns : normalized_stops (s0 :: rest) =
        extendStops ((s0 :: rest).mergeSort (fun a b => decide (a.pos ≤ b.pos))) := rfl
    have hsort : ((s0 :: rest).mergeSort (fun a b => decide (a.pos ≤ b.pos))).Pairwise
        (fun a b => a.pos ≤ b.pos) :=
      (List.sorted_mergeSort stopLe_trans stopLe_total _).imp (fun hab => by simpa using hab)
    have hsne : (s0 :: rest).mergeSort (fun a b => decide (a.pos ≤ b.pos)) ≠ [] := by
      intro hcon
      have := congrArg List.length hcon
      rw [List.length_mergeSort] at this
      simp at this
    obtain ⟨first, tail, hst⟩ := List.exists_cons_of_ne_nil hsne
    have hmem : ∀ s ∈ first :: tail, 0 ≤ s.pos ∧ s.pos ≤ 1 := by
      intro s hs
      rw [← hst] at hs
      exact hrange s (List.mem_mergeSort.mp hs)
    rw [hns, hst]
    exact extendStops_spec first tail (hst ▸ hsort) hmem

/-- A single palette stop at position 0.5. -/
noncomputable def single_stop : List PaletteStop := [⟨0.5, (0.2, 0.3, 0.4)⟩]

/-- C2 counterexample: one stop is a degenerate input, yet `normalized_stops` does
not fall back to the six-stop default palette — it synthesizes the two boundary
stops, returning a three-stop list. -/
theorem normalized_stops_single_not_default :
    normalized_stops single_stop ≠ default_palette := by
  have hns : normalized_stops single_stop =
      [⟨0, (0.2, 0.3, 0.4)⟩, ⟨0.5, (0.2, 0.3, 0.4)⟩, ⟨1, (0.2, 0.3, 0.4)⟩] := by
    rw [single_stop]
    show extendStops ([⟨0.5, (0.2, 0.3, 0.4)⟩].mergeSort (fun a b => decide (a.pos ≤ b.pos))) = _
    rw [List.mergeSort_singleton, extendStops]
    dsimp only
    rw [if_pos (by norm_num)]
    rw [show ([⟨0, (0.2, 0.3, 0.4)⟩, ⟨0.5, (0.2, 0.3, 0.4)⟩] :
        List PaletteStop).getLast? = some ⟨0.5, (0.2, 0.3, 0.4)⟩ from rfl]
    dsimp only
    rw [if_pos (by norm_num [f32_epsilon, abs_of_nonneg])]
    rfl
  rw [hns]
  intro hcon
  have := congrArg List.length hcon
  rw [default_palette] at this
  simp at this

/-- C3 as amended: for every non-empty LUT, `sample_palette` is the nearest-lower
(truncated, not rounded) index lookup `lut[⌊(len-1) * clamp(t,0,1)⌋]`, and that
index is always in bounds. -/
theorem sample_palette_floor (lut : List Rgb8) (t : ℝ) (h : lut ≠ []) :
    ⌊((lut.length - 1 : ℕ) : ℝ) * clampR t 0 1⌋.toNat < lut.length ∧
    sample_palette lut t =
      lut.getD ⌊((lut.length - 1 : ℕ) : ℝ) * clampR t 0 1⌋.toNat (0, 0, 0) := by
  have hcl0 : 0 ≤ clampR t 0 1 := le_min (le_max_right t 0) zero_le_one
  have hcl1 : clampR t 0 1 ≤ 1 := min_le_right _ 1
  have hpos : 0 < lut.length := List.length_pos.mpr h
  have hprod : ((lut.length - 1 : ℕ) : ℝ) * clampR t 0 1 ≤ ((lut.length - 1 : ℕ) : ℝ) :=
    mul_le_of_le_one_right (Nat.cast_nonneg _) hcl1
  have hfl : ⌊((lut.length - 1 : ℕ) : ℝ) * clampR t 0 1⌋ ≤ (lut.length - 1 : ℕ) := by
    calc ⌊((lut.length - 1 : ℕ) : ℝ) * clampR t 0 1⌋
        ≤ ⌊((lut.length - 1 : ℕ) : ℝ)⌋ := Int.floor_le_floor hprod
      _ = (lut.length - 1 : ℕ) := Int.floor_natCast _
  have hidx : ⌊((lut.length - 1 : ℕ) : ℝ) * clampR t 0 1⌋.toNat < lut.length := by
    have h2 : ⌊((lut.length - 1 : ℕ) : ℝ) * clampR t 0 1⌋.toNat ≤ lut.length - 1 := by
      have := Int.toNat_le_toNat hfl
      simpa using this
    omega
  exact ⟨hidx, rfl⟩

/-- A three-entry LUT separating truncation from rounding. -/
def lut3 : List Rgb8 := [(0, 0, 0), (0, 0, 0), (9, 9, 9)]

/-- C3 counterexample: at `t = 0.9` on a 3-entry LUT the source truncates
`(len-1)*t = 1.8` to index 1, while the spec's rounding formula gives index 2. -/
theorem sample_palette_not_rounded :
    sample_palette lut3 (9 / 10) ≠ sample_palette_spec lut3 (9 / 10) := by
  have hcl : clampR ((9 : ℝ) / 10) 0 1 = 9 / 10 := by
    rw [clampR]
    norm_num
  have hlen : ((lut3.length - 1 : ℕ) : ℝ) = 2 := by norm_num [lut3]
  have h1 : sample_palette lut3 (9 / 10) = (0, 0, 0) := by
    rw [sample_palette, hcl, hlen]
    norm_num [lut3]
  have h2 : sample_palette_spec lut3 (9 / 10) = (9, 9, 9) := by
    rw [sample_palette_spec, hcl, hlen]
    norm_num [lut3, round_eq]
    rfl
  rw [h1, h2]
  decide

/-- Witness for the amended C3 statement at the concrete nonempty LUT `lut3`. -/
theorem sample_palette_floor_witness :
    lut3 ≠ [] ∧
    (⌊((lut3.length - 1 : ℕ) : ℝ) * clampR (1 / 2) 0 1⌋.toNat < lut3.length ∧
      sample_palette lut3 (1 / 2) =
        lut3.getD ⌊((lut3.length - 1 : ℕ) : ℝ) * clampR (1 / 2) 0 1⌋.toNat (0, 0, 0)) :=
  ⟨by simp [lut3], sample_palette_floor lut3 (1 / 2) (by simp [lut3])⟩

-- ------------------------- Theorems: tiling equals the single-tile render -------------------------

/-- Tile `t` covers global pixel `(gx, gy)`. -/
def tileContains (t : TileInfo) (gx gy : ℕ) : Prop :=
  t.offset_x ≤ gx ∧ gx < t.offset_x + t.tile_w ∧ t.offset_y ≤ gy ∧ gy < t.offset_y + t.tile_h

instance (t : TileInfo) (gx gy : ℕ) : Decidable (tileContains t gx gy) :=
  inferInstanceAs (Decidable (_ ∧ _ ∧ _ ∧ _))

/-- A byte index `(gy*w + gx)*4 + ch` lies in the blit range of row `ry` of a tile
with x-extent `[ox, ox+tw)` exactly when `gy = ry` and `gx` is in the x-extent. -/
lemma row_decode {w ox tw ry gy gx ch : ℕ} (hw : ox + tw ≤ w) (hgx : gx < w) (hch : ch < 4) :
    ((ry * w + ox) * 4 ≤ (gy * w + gx) * 4 + ch ∧
      (gy * w + gx) * 4 + ch < (ry * w + ox) * 4 + tw * 4) ↔
    (gy = ry ∧ ox ≤ gx ∧ gx < ox + tw) := by
  have hle : ∀ u v2 : ℕ, u < v2 → u * w + w ≤ v2 * w := by
    intro u v2 huv
    calc u * w + w = (u + 1) * w := by ring
      _ ≤ v2 * w := Nat.mul_le_mul_right w huv
  constructor
  · rintro ⟨h1, h2⟩
    rcases lt_trichotomy gy ry with hlt | heq | hgt
    · have h3 := hle gy ry hlt
      omega
    · subst heq
      omega
    · have h3 := hle ry gy hgt
      omega
  · rintro ⟨rfl, hx1, hx2⟩
    omega

/-- Value of the row-by-row blit fold at byte `(gy*w + gx)*4 + ch`: the tile's pixel
byte when `(gx, gy)` lies in the first `n` blitted rows, the untouched target
otherwise. -/
lemma blit_rows_get (w : ℕ) (t : TileInfo) (px : Buf) (gx gy ch : ℕ)
    (hwx : t.offset_x + t.tile_w ≤ w) (hgx : gx < w) (hch : ch < 4) :
    ∀ (n : ℕ) (target : Buf),
      ((List.range n).foldl
        (fun tgt ty =>
          copyRange tgt (((t.offset_y + ty) * w + t.offset_x) * 4) (ty * t.tile_w * 4)
            (t.tile_w * 4) px)
        target) ((gy * w + gx) * 4 + ch) =
      if t.offset_x ≤ gx ∧ gx < t.offset_x + t.tile_w ∧ t.offset_y ≤ gy ∧ gy < t.offset_y + n
      then px (((gy - t.offset_y) * t.tile_w + (gx - t.offset_x)) * 4 + ch)
      else target ((gy * w + gx) * 4 + ch) := by
  intro n
  induction n with
  | zero =>
    intro target
    rw [List.range_zero, List.foldl_nil, if_neg (by omega)]
  | succ m ih =>
    intro target
    rw [List.range_succ, List.foldl_append, List.foldl_cons, List.foldl_nil]
    simp only [copyRange]
    by_cases hcond : ((t.offset_y + m) * w + t.offset_x) * 4 ≤ (gy * w + gx) * 4 + ch ∧
        (gy * w + gx) * 4 + ch < ((t.offset_y + m) * w + t.offset_x) * 4 + t.tile_w * 4
    · rw [if_pos hcond]
      obtain ⟨heq, hx1, hx2⟩ := (row_decode hwx hgx hch).mp hcond
      subst heq
      rw [if_pos (by omega)]
      congr 1
      simp only [Nat.add_sub_cancel_left]
      omega
    · rw [if_neg hcond]
      rw [ih target]
      have hnot : ¬ (gy = t.offset_y + m ∧ t.offset_x ≤ gx ∧ gx < t.offset_x + t.tile_w) :=
        fun hc => hcond ((row_decode hwx hgx hch).mpr hc)
      by_cases hc2 : t.offset_x ≤ gx ∧ gx < t.offset_x + t.tile_w ∧ t.offset_y ≤ gy ∧
          gy < t.offset_y + m
      · rw [if_pos hc2, if_pos (by omega)]
      · rw [if_neg hc2, if_neg ?_]
        intro hc3
        by_cases hgym : gy = t.offset_y + m
        · exact hnot ⟨hgym, hc3.1, hc3.2.1⟩
        · exact hc2 ⟨hc3.1, hc3.2.1, hc3.2.2.1, by omega⟩

/-- Value of `blit_tile` at byte `(gy*w + gx)*4 + ch`: the tile's local pixel byte
when the tile covers `(gx, gy)`, the untouched target otherwise. -/
lemma blit_tile_get (w : ℕ) (t : TileInfo) (target px : Buf) (gx gy ch : ℕ)
    (hwx : t.offset_x + t.tile_w ≤ w) (hgx : gx < w) (hch : ch < 4) :
    blit_tile target w t px ((gy * w + gx) * 4 + ch) =
      if tileContains t gx gy
      then px (((gy - t.offset_y) * t.tile_w + (gx - t.offset_x)) * 4 + ch)
      else target ((gy * w + gx) * 4 + ch) := by
  rw [blit_tile]
  have h := blit_rows_get w t px gx gy ch hwx hgx hch t.tile_h target
  rw [h]
  by_cases hcont : t.offset_x ≤ gx ∧ gx < t.offset_x + t.tile_w ∧ t.offset_y ≤ gy ∧
      gy < t.offset_y + t.tile_h
  · rw [if_pos hcont, if_pos (show tileContains t gx gy from hcont)]
  · rw [if_neg hcont, if_neg (show ¬ tileContains t gx gy from hcont)]

/-- A predicate holds for exactly one element of the list. -/
inductive ExactlyOne {α : Type} (P : α → Prop) : List α → Prop
  | head {t : α} {l : List α} : P t → (∀ u ∈ l, ¬ P u) → ExactlyOne P (t :: l)
  | tail {t : α} {l : List α} : ¬ P t → ExactlyOne P l → ExactlyOne P (t :: l)

/-- Appending elements not satisfying `P` on the right keeps exactly-one. -/
lemma exactlyOne_append_left {α : Type} {P : α → Prop} {l1 l2 : List α}
    (h1 : ExactlyOne P l1) (h2 : ∀ u ∈ l2, ¬ P u) : ExactlyOne P (l1 ++ l2) := by
  induction h1 with
  | head hp hn =>
    refine ExactlyOne.head hp ?_
    intro u hu
    rcases List.mem_append.mp hu with hu1 | hu2
    · exact hn u hu1
    · exact h2 u hu2
  | tail hnp _ ih => exact ExactlyOne.tail hnp ih

/-- Prepending elements not satisfying `P` keeps exactly-one. -/
lemma exactlyOne_append_right {α : Type} {P : α → Prop} {l1 l2 : List α}
    (h1 : ∀ u ∈ l1, ¬ P u) (h2 : ExactlyOne P l2) : ExactlyOne P (l1 ++ l2) := by
  induction l1 with
  | nil => simpa using h2
  | cons a l ih =>
    exact ExactlyOne.tail (h1 a (by simp)) (ih (fun u hu => h1 u (by simp [hu])))

/-- Exactly-one transfers along a pointwise equivalence on the list's elements. -/
lemma exactlyOne_congr {α : Type} {P Q : α → Prop} : ∀ {l : List α},
    (∀ u ∈ l, (P u ↔ Q u)) → ExactlyOne P l → ExactlyOne Q l := by
  intro l
  induction l with
  | nil => intro _ h1; cases h1
  | cons a l ih =>
    intro h h1
    cases h1 with
    | head hp hn =>
      exact ExactlyOne.head ((h a (by simp)).mp hp)
        (fun u hu hq => hn u hu ((h u (by simp [hu])).mpr hq))
    | tail hnp ht =>
      exact ExactlyOne.tail (fun hq => hnp ((h a (by simp)).mpr hq))
        (ih (fun u hu => h u (by simp [hu])) ht)

/-- The tile-blit fold leaves a byte unchanged when no tile of the list covers the
byte's pixel. -/
lemma foldl_blit_untouched (w : ℕ) (p : FractalParams) (cam : Camera) (palette : List Rgb8)
    (gx gy ch : ℕ) (hgx : gx < w) (hch : ch < 4) :
    ∀ (tiles : List TileInfo) (b : Buf),
      (∀ t ∈ tiles, t.offset_x + t.tile_w ≤ w) →
      (∀ t ∈ tiles, ¬ tileContains t gx gy) →
      (tiles.foldl
        (fun frame tile => blit_tile frame w tile (render_fractal_cpu tile p cam palette)) b)
        ((gy * w + gx) * 4 + ch) = b ((gy * w + gx) * 4 + ch) := by
  intro tiles
  induction tiles with
  | nil => intro b _ _; rfl
  | cons t rest ih =>
    intro b hwf hnone
    rw [List.foldl_cons, ih _ (fun u hu => hwf u (by simp [hu])) (fun u hu => hnone u (by simp [hu]))]
    rw [blit_tile_get w t b _ gx gy ch (hwf t (by simp)) hgx hch,
      if_neg (hnone t (by simp))]

/-- The tile's local pixel bytes are the global pixel bytes at the tile's offset. -/
lemma render_tile_get (tile : TileInfo) (p : FractalParams) (cam : Camera)
    (palette : List Rgb8) (lx ly ch : ℕ)
    (hlx : lx < tile.tile_w) (hly : ly < tile.tile_h) (hch : ch < 4) :
    render_fractal_cpu tile p cam palette ((ly * tile.tile_w + lx) * 4 + ch) =
      pixelByte p cam palette tile.full_w tile.full_h
        (tile.offset_x + lx) (tile.offset_y + ly) ch := by
  simp only [render_fractal_cpu]
  have h1 : ly * tile.tile_w + lx < tile.tile_w * tile.tile_h := by
    have h2 : (ly + 1) * tile.tile_w = ly * tile.tile_w + tile.tile_w := by ring
    have h3 : (ly + 1) * tile.tile_w ≤ tile.tile_h * tile.tile_w :=
      Nat.mul_le_mul_right _ (Nat.succ_le_of_lt hly)
    have h9 : tile.tile_h * tile.tile_w = tile.tile_w * tile.tile_h := Nat.mul_comm _ _
    omega
  rw [if_pos (by omega)]
  have h4 : ((ly * tile.tile_w + lx) * 4 + ch) / 4 = ly * tile.tile_w + lx := by omega
  have h5 : ((ly * tile.tile_w + lx) * 4 + ch) % 4 = ch := by omega
  rw [h4, h5, mul_comm ly tile.tile_w, Nat.mul_add_mod, Nat.mod_eq_of_lt hlx,
    Nat.mul_add_div (show 0 < tile.tile_w by omega), Nat.div_eq_of_lt hlx, add_zero]

/-- When exactly one tile of a well-formed list covers a pixel, the tile-blit fold
produces that pixel's global byte, independent of the starting buffer. -/
lemma foldl_blit_exact (w h : ℕ) (p : FractalParams) (cam : Camera) (palette : List Rgb8)
    (gx gy ch : ℕ) (hgx : gx < w) (hch : ch < 4) :
    ∀ (tiles : List TileInfo) (b : Buf),
      (∀ t ∈ tiles, t.full_w = w ∧ t.full_h = h ∧ t.offset_x + t.tile_w ≤ w) →
      ExactlyOne (fun t => tileContains t gx gy) tiles →
      (tiles.foldl
        (fun frame tile => blit_tile frame w tile (render_fractal_cpu tile p cam palette)) b)
        ((gy * w + gx) * 4 + ch) = pixelByte p cam palette w h gx gy ch := by
  intro tiles
  induction tiles with
  | nil => intro b _ hone; cases hone
  | cons t rest ih =>
    intro b hwf hone
    rw [List.foldl_cons]
    cases hone with
    | tail hnp hrest => exact ih _ (fun u hu => hwf u (by simp [hu])) hrest
    | head hp hrest =>
      obtain ⟨hfw, hfh, hwx⟩ := hwf t (by simp)
      rw [foldl_blit_untouched w p cam palette gx gy ch hgx hch rest _
        (fun u hu => (hwf u (by simp [hu])).2.2) hrest]
      rw [blit_tile_get w t b _ gx gy ch hwx hgx hch, if_pos hp]
      obtain ⟨hx1, hx2, hy1, hy2⟩ := hp
      rw [render_tile_get t p cam palette (gx - t.offset_x) (gy - t.offset_y) ch
        (by omega) (by omega) hch]
      rw [Nat.add_sub_cancel' hx1, Nat.add_sub_cancel' hy1, hfw, hfh]

/-- Shape facts about every tile of one grid row: full frame dimensions recorded,
row offset `y`, height `min stride (height - y)`, x-offset at least the loop
variable, and x-extent inside the frame. -/
lemma tileRow_mem (w h s y : ℕ) : ∀ x, ∀ t ∈ tileRow w h s y x,
    t.full_w = w ∧ t.full_h = h ∧ t.offset_y = y ∧ t.tile_h = min s (h - y) ∧
      x ≤ t.offset_x ∧ t.offset_x + t.tile_w ≤ w := by
  suffices H : ∀ (m x : ℕ), w - x ≤ m → ∀ t ∈ tileRow w h s y x,
      t.full_w = w ∧ t.full_h = h ∧ t.offset_y = y ∧ t.tile_h = min s (h - y) ∧
        x ≤ t.offset_x ∧ t.offset_x + t.tile_w ≤ w by
    exact fun x => H (w - x) x le_rfl
  intro m
  induction m with
  | zero =>
    intro x hx t ht
    rw [tileRow, dif_neg (by omega)] at ht
    simp at ht
  | succ m ih =>
    intro x hx t ht
    rw [tileRow] at ht
    by_cases hcond : x < w ∧ 0 < s
    · rw [dif_pos hcond] at ht
      rcases List.mem_cons.mp ht with rfl | ht2
      · refine ⟨rfl, rfl, rfl, rfl, le_rfl, by simp; omega⟩
      · have hr := ih (x + s) (by omega) t ht2
        exact ⟨hr.1, hr.2.1, hr.2.2.1, hr.2.2.2.1, by omega, hr.2.2.2.2.2⟩
    · rw [dif_neg hcond] at ht
      simp at ht

/-- Shape facts about every tile of the row-major grid: full frame dimensions
recorded, extents inside the frame, and y-offset at least the loop variable. -/
lemma tileRows_mem (w h s : ℕ) : ∀ y, ∀ t ∈ tileRows w h s y,
    t.full_w = w ∧ t.full_h = h ∧ t.offset_x + t.tile_w ≤ w ∧ y ≤ t.offset_y := by
  suffices H : ∀ (m y : ℕ), h - y ≤ m → ∀ t ∈ tileRows w h s y,
      t.full_w = w ∧ t.full_h = h ∧ t.offset_x + t.tile_w ≤ w ∧ y ≤ t.offset_y by
    exact fun y => H (h - y) y le_rfl
  intro m
  induction m with
  | zero =>
    intro y hy t ht
    rw [tileRows, dif_neg (by omega)] at ht
    simp at ht
  | succ m ih =>
    intro y hy t ht
    rw [tileRows] at ht
    by_cases hcond : y < h ∧ 0 < s
    · rw [dif_pos hcond] at ht
      rcases List.mem_append.mp ht with ht1 | ht2
      · have hr := tileRow_mem w h s y 0 t ht1
        exact ⟨hr.1, hr.2.1, hr.2.2.2.2.2, le_of_eq hr.2.2.1.symm⟩
      · have hr := ih (y + s) (by omega) t ht2
        exact ⟨hr.1, hr.2.1, hr.2.2.1, by omega⟩
    · rw [dif_neg hcond] at ht
      simp at ht

/-- Exactly one tile of a grid row covers any column `gx` with `x ≤ gx < width`. -/
lemma tileRow_cover (w h s y gx : ℕ) (hgx : gx < w) (hs : 0 < s) :
    ∀ x, x ≤ gx →
      ExactlyOne (fun t => t.offset_x ≤ gx ∧ gx < t.offset_x + t.tile_w)
        (tileRow w h s y x) := by
  suffices H : ∀ (m x : ℕ), w - x ≤ m → x ≤ gx →
      ExactlyOne (fun t => t.offset_x ≤ gx ∧ gx < t.offset_x + t.tile_w)
        (tileRow w h s y x) by
    exact fun x => H (w - x) x le_rfl
  intro m
  induction m with
  | zero => intro x hx hxle; omega
  | succ m ih =>
    intro x hx hxle
    have hcond : x < w ∧ 0 < s := ⟨by omega, hs⟩
    rw [tileRow, dif_pos hcond]
    by_cases hin : gx < x + s
    · refine ExactlyOne.head ⟨hxle, by simp; omega⟩ ?_
      intro u hu hcont
      have hr := tileRow_mem w h s y (x + s) u hu
      omega
    · refine ExactlyOne.tail ?_ (ih (x + s) (by omega) (by omega))
      intro hcont
      simp only at hcont
      omega

/-- Exactly one tile of the row-major grid covers any pixel of the frame. -/
lemma tileRows_cover (w h s gx gy : ℕ) (hgx : gx < w) (hgy : gy < h) (hs : 0 < s) :
    ∀ y, y ≤ gy → ExactlyOne (fun t => tileContains t gx gy) (tileRows w h s y) := by
  suffices H : ∀ (m y : ℕ), h - y ≤ m → y ≤ gy →
      ExactlyOne (fun t => tileContains t gx gy) (tileRows w h s y) by
    exact fun y => H (h - y) y le_rfl
  intro m
  induction m with
  | zero => intro y hy hyle; omega
  | succ m ih =>
    intro y hy hyle
    have hcond : y < h ∧ 0 < s := ⟨by omega, hs⟩
    rw [tileRows, dif_pos hcond]
    by_cases hin : gy < y + s
    · apply exactlyOne_append_left
      · apply exactlyOne_congr ?_ (tileRow_cover w h s y gx hgx hs 0 (Nat.zero_le _))
        intro u hu
        have hr := tileRow_mem w h s y 0 u hu
        rw [tileContains]
        constructor
        · intro hxc
          exact ⟨hxc.1, hxc.2, by omega, by omega⟩
        · intro hc
          exact ⟨hc.1, hc.2.1⟩
      · intro u hu hcont
        have hr := tileRows_mem w h s (y + s) u hu
        rw [tileContains] at hcont
        omega
    · apply exactlyOne_append_right
      · intro u hu hcont
        have hr := tileRow_mem w h s y 0 u hu
        rw [tileContains] at hcont
        omega
      · exact ih (y + s) (by omega) (by omega)

/-- Every tile of `tile_iterator` records the frame dimensions and fits inside the
frame horizontally. -/
lemma tile_iterator_wf (w h ts : ℕ) : ∀ t ∈ tile_iterator w h ts,
    t.full_w = w ∧ t.full_h = h ∧ t.offset_x + t.tile_w ≤ w := by
  intro t ht
  rw [tile_iterator] at ht
  by_cases h1 : ts = 0 ∧ w ≤ 8192 ∧ h ≤ 8192
  · rw [if_pos h1] at ht
    simp only [List.mem_singleton] at ht
    subst ht
    exact ⟨rfl, rfl, by simp [TileInfo.full]⟩
  · rw [if_neg h1] at ht
    simp only at ht
    by_cases h2 : w ≤ (if ts = 0 then 4096 else ts) ∧ h ≤ (if ts = 0 then 4096 else ts)
    · rw [if_pos h2] at ht
      simp only [List.mem_singleton] at ht
      subst ht
      exact ⟨rfl, rfl, by simp [TileInfo.full]⟩
    · rw [if_neg h2] at ht
      have hr := tileRows_mem w h (max (if ts = 0 then 4096 else ts) 256) 0 t ht
      exact ⟨hr.1, hr.2.1, hr.2.2.1⟩

/-- Exactly one tile of `tile_iterator` covers any pixel of the frame, whatever the
requested tile size. -/
lemma tile_iterator_cover (w h ts gx gy : ℕ) (hgx : gx < w) (hgy : gy < h) :
    ExactlyOne (fun t => tileContains t gx gy) (tile_iterator w h ts) := by
  rw [tile_iterator]
  by_cases h1 : ts = 0 ∧ w ≤ 8192 ∧ h ≤ 8192
  · rw [if_pos h1]
    exact ExactlyOne.head ⟨Nat.zero_le _, by simpa [TileInfo.full] using hgx, Nat.zero_le _, by simpa [TileInfo.full] using hgy⟩
      (by simp)
  · rw [if_neg h1]
    simp only
    by_cases h2 : w ≤ (if ts = 0 then 4096 else ts) ∧ h ≤ (if ts = 0 then 4096 else ts)
    · rw [if_pos h2]
      exact ExactlyOne.head ⟨Nat.zero_le _, by simpa [TileInfo.full] using hgx, Nat.zero_le _, by simpa [TileInfo.full] using hgy⟩
        (by simp)
    · rw [if_neg h2]
      exact tileRows_cover w h _ gx gy hgx hgy
        (lt_of_lt_of_le (by norm_num) (le_max_right _ 256)) 0 (Nat.zero_le _)

/-- Master lemma: whatever the tile plan, every byte of the composited frame is the
global pixel byte at its coordinates — the tile decomposition is invisible. -/
lemma render_image_pixel (w h : ℕ) (p : FractalParams) (cam : Camera) (ts : ℕ)
    (gx gy ch : ℕ) (hgx : gx < w) (hgy : gy < h) (hch : ch < 4) :
    render_image (w, h) p cam ts ((gy * w + gx) * 4 + ch) =
      pixelByte p cam (build_palette p 2048) w h gx gy ch := by
  simp only [render_image]
  exact foldl_blit_exact w h p cam (build_palette p 2048) gx gy ch hgx hch
    (tile_iterator w h ts) _ (tile_iterator_wf w h ts)
    (tile_iterator_cover w h ts gx gy hgx hgy)

/-- C1: for tile sizes 0, 64, 257 and `min w h`, the tiled CPU render is
byte-identical to the tile-size-0 (single-tile, below the 8192 threshold) render:
tiling is invisible in the output. -/
theorem render_tiling_equiv (w h ts : ℕ) (p : FractalParams) (cam : Camera)
    (hw : w ≤ 8192) (hh : h ≤ 8192) (hts : ts ∈ [0, 64, 257, min w h]) :
    ∀ i < w * h * 4, render_image (w, h) p cam ts i = render_image (w, h) p cam 0 i := by
  intro i hi
  rcases Nat.eq_zero_or_pos w with rfl | hw0
  · rw [Nat.zero_mul, Nat.zero_mul] at hi
    omega
  rcases Nat.eq_zero_or_pos h with rfl | hh0
  · rw [Nat.mul_zero, Nat.zero_mul] at hi
    omega
  obtain ⟨gx, gy, ch, hch, hgx2, hgy2, rfl⟩ :
      ∃ gx gy ch, ch < 4 ∧ gx < w ∧ gy < h ∧ i = (gy * w + gx) * 4 + ch := by
    refine ⟨(i / 4) % w, (i / 4) / w, i % 4, Nat.mod_lt _ (by norm_num),
      Nat.mod_lt _ hw0, ?_, ?_⟩
    · exact Nat.div_lt_of_lt_mul (by omega)
    · have e1 : (i / 4 / w) * w + (i / 4) % w = i / 4 := by
        rw [mul_comm]
        exact Nat.div_add_mod _ _
      rw [e1]
      omega
  rw [render_image_pixel w h p cam ts gx gy ch hgx2 hgy2 hch,
    render_image_pixel w h p cam 0 gx gy ch hgx2 hgy2 hch]

/-- Witness for C1 at a concrete 300×200 frame with tile size 257 and byte 0. -/
theorem render_tiling_equiv_witness :
    (300 : ℕ) ≤ 8192 ∧ (257 : ℕ) ∈ [0, 64, 257, min 300 200] ∧ (0 : ℕ) < 300 * 200 * 4 ∧
    render_image (300, 200) default_params default_camera 257 0 =
      render_image (300, 200) default_params default_camera 0 0 :=
  ⟨by norm_num, by decide, by norm_num,
    render_tiling_equiv 300 200 257 default_params default_camera (by norm_num) (by norm_num)
      (by decide) 0 (by norm_num)⟩

/-- C10: every alpha byte (index `≡ 3 mod 4`) of a CPU-rendered tile is 255, and so
is every alpha byte of the full frame composited by `render_image`. -/
theorem alpha_byte_255 :
    (∀ (tile : TileInfo) (p : FractalParams) (cam : Camera) (lut : List Rgb8), lut ≠ [] →
      ∀ idx, idx < tile.tile_w * tile.tile_h * 4 → idx % 4 = 3 →
        render_fractal_cpu tile p cam lut idx = 255) ∧
    (∀ (w h : ℕ) (p : FractalParams) (cam : Camera) (ts : ℕ),
      ∀ idx, idx < w * h * 4 → idx % 4 = 3 → render_image (w, h) p cam ts idx = 255) := by
  constructor
  · intro tile p cam lut _ idx hidx hmod
    simp only [render_fractal_cpu]
    rw [if_pos hidx, hmod]
    rw [pixelByte]
    norm_num
  · intro w h p cam ts idx hidx hmod
    rcases Nat.eq_zero_or_pos w with rfl | hw0
    · rw [Nat.zero_mul, Nat.zero_mul] at hidx
      omega
    rcases Nat.eq_zero_or_pos h with rfl | hh0
    · rw [Nat.mul_zero, Nat.zero_mul] at hidx
      omega
    obtain ⟨gx, gy, ch, hch, hgx2, hgy2, rfl⟩ :
        ∃ gx gy ch, ch < 4 ∧ gx < w ∧ gy < h ∧ idx = (gy * w + gx) * 4 + ch := by
      refine ⟨(idx / 4) % w, (idx / 4) / w, idx % 4, Nat.mod_lt _ (by norm_num),
        Nat.mod_lt _ hw0, ?_, ?_⟩
      · exact Nat.div_lt_of_lt_mul (by omega)
      · have e1 : (idx / 4 / w) * w + (idx / 4) % w = idx / 4 := by
          rw [mul_comm]
          exact Nat.div_add_mod _ _
        rw [e1]
        omega
    have hch3 : ch = 3 := by omega
    subst hch3
    rw [render_image_pixel w h p cam ts gx gy 3 hgx2 hgy2 (by norm_num)]
    rw [pixelByte]
    norm_num

end Matterhorn
